import Mathlib

/-!
Verification of the Dirichlet-process-discrete component model
(`include/distributions/models/dpd.hpp`).

Embedding conventions:
* `float` arithmetic is embedded exactly, over `ℚ`.
* The external scalar approximations `fast_log` and `fast_lgamma` are
  collaborators specified only at their interface; they are passed in as
  function parameters `log, lgamma : ℚ → ℚ`.  `vector_log` applies the same
  `log` elementwise, so caches built by `Mixture.init` apply `log` directly
  to each raw entry.
* The external `SparseCounter<Value, count_t>` collaborator is modelled by an
  association list of (value, count) pairs with its interface operations
  (`add`, `remove`, `get_count`, `get_total`, iteration over present keys);
  real counter states have distinct keys and positive counts.
* The mutable `rng_t &` parameter is threaded as explicit state in the `R`
  suffixed wrappers; the scoring functions of the source never read it.
* C++ `std::vector` members become Lean `List`s; in-place loops over indices
  `0 ≤ i < n` become maps over `List.range n`; reads `xs[i]` become
  `xs.getD i default` (the source indexes only in bounds on valid calls).
-/

namespace DPD

/-- Category values; the source uses `uint32_t`. -/
abbrev Value := ℕ

/-- Hyperparameters (`struct Shared`). -/
structure Shared where
  gamma : ℚ
  alpha : ℚ
  beta0 : ℚ
  betas : List ℚ
deriving DecidableEq

/-- Source `dim = betas.size()`. -/
def Shared.dim (shared : Shared) : ℕ := shared.betas.length

/-- Source `SparseCounter::get_count(value)`: count of the first entry with the
given key, 0 when absent. -/
def scGetCount : List (Value × ℕ) → Value → ℕ
  | [], _ => 0
  | (k, c) :: t, v => if k = v then c else scGetCount t v

/-- Source `SparseCounter::get_total()`: sum of all stored counts. -/
def scTotal (l : List (Value × ℕ)) : ℕ := (l.map Prod.snd).sum

/-- Source `SparseCounter::add(value)`: increment the entry for `value` (inserting
it with count 1 when absent) and return the updated list together with the
new count of `value`. -/
def scAdd : List (Value × ℕ) → Value → List (Value × ℕ) × ℕ
  | [], v => ([(v, 1)], 1)
  | (k, c) :: t, v =>
    if k = v then ((k, c + 1) :: t, c + 1)
    else
      let p := scAdd t v
      ((k, c) :: p.1, p.2)

/-- Source `SparseCounter::remove(value)`: decrement the entry for `value`, erasing
it when the count reaches zero, and return the updated list together with the
new count.  Removing an absent value is a contract violation in the source;
here it leaves the list unchanged and returns 0. -/
def scRemove : List (Value × ℕ) → Value → List (Value × ℕ) × ℕ
  | [], _ => ([], 0)
  | (k, c) :: t, v =>
    if k = v then (if c ≤ 1 then (t, c - 1) else ((k, c - 1) :: t, c - 1))
    else
      let p := scRemove t v
      ((k, c) :: p.1, p.2)

/-- One cluster's sufficient statistics (`struct Group`). -/
structure Group where
  counts : List (Value × ℕ)
deriving DecidableEq

instance : Inhabited Group := ⟨⟨[]⟩⟩

/-- Source `Group::init`: clears the histogram. -/
def Group.init : Group := ⟨[]⟩

/-- Source `Group::add_value`: delegates to `counts.add(value)`; the new group and
the new count of `value` are returned. -/
def Group.add_value (g : Group) (v : Value) : Group × ℕ :=
  let p := scAdd g.counts v
  (⟨p.1⟩, p.2)

/-- Source `Group::remove_value`: delegates to `counts.remove(value)`. -/
def Group.remove_value (g : Group) (v : Value) : Group × ℕ :=
  let p := scRemove g.counts v
  (⟨p.1⟩, p.2)

/-- The unnormalized Dirichlet concentration buffer built by `Sampler::init`
before it is handed to `sample_dirichlet` in place: `betas[v]*alpha` for each
v, incremented by the group's count for every present key, then a final
`beta0*alpha` entry. -/
def Sampler.init_probs (shared : Shared) (group : Group) : List ℚ :=
  let base := shared.betas.map (fun beta => beta * shared.alpha)
  let withCounts :=
    group.counts.foldl (fun ps kv => ps.set kv.1 (ps.getD kv.1 0 + (kv.2 : ℚ))) base
  withCounts ++ [shared.beta0 * shared.alpha]

/-- Source `struct Sampler`: `probs` holds the result of drawing a Dirichlet sample
in place over the concentration buffer.  The Dirichlet primitive is an
external collaborator, passed in as `sampleDirichlet`. -/
structure Sampler where
  probs : List ℚ
deriving DecidableEq

/-- Source `Sampler::init`: build the concentration buffer, then overwrite it in
place with a Dirichlet draw. -/
def Sampler.init (sampleDirichlet : List ℚ → List ℚ) (shared : Shared)
    (group : Group) : Sampler :=
  ⟨sampleDirichlet (Sampler.init_probs shared group)⟩

/-- Source `struct Scorer`: dense per-value posterior-predictive probabilities. -/
structure Scorer where
  scores : List ℚ
deriving DecidableEq

/-- Source `Scorer::init`: `scores[i] = betas_scale * betas[i]` with
`betas_scale = alpha / (alpha + total)`, then `+ counts_scale * count` for
every present key, with `counts_scale = 1 / (alpha + total)`. -/
def Scorer.init (shared : Shared) (group : Group) : Scorer :=
  let total : ℕ := scTotal group.counts
  let betas_scale := shared.alpha / (shared.alpha + (total : ℚ))
  let base := shared.betas.map (fun beta => betas_scale * beta)
  let counts_scale := 1 / (shared.alpha + (total : ℚ))
  ⟨group.counts.foldl
    (fun s kv => s.set kv.1 (s.getD kv.1 0 + counts_scale * (kv.2 : ℚ)))
    base⟩

/-- Source `Scorer::eval`: `fast_log(scores[value])`. -/
def Scorer.eval (log : ℚ → ℚ) (scorer : Scorer) (value : Value) : ℚ :=
  log (scorer.scores.getD value 0)

/-- Source `struct Mixture`: the groups array plus the derived cache
`scores[v][g]` / `scores_shift[g]`. -/
structure Mixture where
  groups : List Group
  scores : List (List ℚ)
  scores_shift : List ℚ
deriving DecidableEq

/-- Source `Mixture::init`: rebuild the whole cache from `groups`:
`scores[v][g] = log(alpha*betas[v] + count)` and
`scores_shift[g] = log(alpha + total)` (raw values filled first, then
`vector_log` applied elementwise). -/
def Mixture.init (log : ℚ → ℚ) (shared : Shared) (m : Mixture) : Mixture :=
  { groups := m.groups
    scores := (List.range shared.dim).map (fun value =>
      m.groups.map (fun group =>
        log (shared.alpha * shared.betas.getD value 0
          + (scGetCount group.counts value : ℚ))))
    scores_shift := m.groups.map (fun group =>
      log (shared.alpha + (scTotal group.counts : ℚ))) }

/-- Source `Mixture::add_group`: append a freshly init'd group and extend
`scores_shift` and each per-value row with a zero entry (`resize(n+1, 0)`). -/
def Mixture.add_group (shared : Shared) (m : Mixture) : Mixture :=
  { groups := m.groups ++ [Group.init]
    scores := (List.range shared.dim).map (fun value =>
      (m.scores.getD value []) ++ [0])
    scores_shift := m.scores_shift ++ [0] }

/-- Source `Mixture::remove_group`: when `groupid` is not the last index, swap the
last group (and its cache entries) into slot `groupid`; then shrink every
array by one. -/
def Mixture.remove_group (shared : Shared) (m : Mixture) (groupid : ℕ) :
    Mixture :=
  let group_count := m.groups.length - 1
  if groupid = group_count then
    { groups := m.groups.take group_count
      scores := (List.range shared.dim).map (fun value =>
        (m.scores.getD value []).take group_count)
      scores_shift := m.scores_shift.take group_count }
  else
    { groups := (m.groups.set groupid
        (m.groups.getD (m.groups.length - 1) Group.init)).take group_count
      scores := (List.range shared.dim).map (fun value =>
        let vscores := m.scores.getD value []
        (vscores.set groupid (vscores.getD (vscores.length - 1) 0)).take
          group_count)
      scores_shift := (m.scores_shift.set groupid
        (m.scores_shift.getD (m.scores_shift.length - 1) 0)).take group_count }

/-- Source `Mixture::add_value`: `count = counts.add(value)`,
`count_sum = counts.get_total()`, then overwrite the one cell
`scores[value][groupid] = log(alpha*betas[value] + count)` and
`scores_shift[groupid] = log(alpha + count_sum)`. -/
def Mixture.add_value (log : ℚ → ℚ) (shared : Shared) (m : Mixture)
    (groupid : ℕ) (value : Value) : Mixture :=
  let group := m.groups.getD groupid Group.init
  let p := scAdd group.counts value
  let count_sum : ℕ := scTotal p.1
  { groups := m.groups.set groupid ⟨p.1⟩
    scores := m.scores.set value ((m.scores.getD value []).set groupid
      (log (shared.alpha * shared.betas.getD value 0 + (p.2 : ℚ))))
    scores_shift := m.scores_shift.set groupid
      (log (shared.alpha + (count_sum : ℚ))) }

/-- Source `Mixture::remove_value`: `count = counts.remove(value)`,
`count_sum = counts.get_total()`, then overwrite the same two cache
entries. -/
def Mixture.remove_value (log : ℚ → ℚ) (shared : Shared) (m : Mixture)
    (groupid : ℕ) (value : Value) : Mixture :=
  let group := m.groups.getD groupid Group.init
  let p := scRemove group.counts value
  let count_sum : ℕ := scTotal p.1
  { groups := m.groups.set groupid ⟨p.1⟩
    scores := m.scores.set value ((m.scores.getD value []).set groupid
      (log (shared.alpha * shared.betas.getD value 0 + (p.2 : ℚ))))
    scores_shift := m.scores_shift.set groupid
      (log (shared.alpha + (count_sum : ℚ))) }

/-- Source `vector_add_subtract(size, accum, a, b)`:
`accum[i] += a[i] - b[i]` for `i < size`. -/
def vector_add_subtract (size : ℕ) (accum a b : List ℚ) : List ℚ :=
  (List.range size).map (fun i => accum.getD i 0 + (a.getD i 0 - b.getD i 0))

/-- Source `Mixture::score_value`: accumulate `scores[value][g] - scores_shift[g]`
into the caller's buffer for every group `g`. -/
def Mixture.score_value (shared : Shared) (m : Mixture) (value : Value)
    (scores_accum : List ℚ) : List ℚ :=
  vector_add_subtract m.groups.length scores_accum
    (m.scores.getD value []) m.scores_shift

/-- Free function `score_value`: `Scorer scorer; scorer.init(...);
return scorer.eval(...)`. -/
def score_value (log : ℚ → ℚ) (shared : Shared) (group : Group)
    (value : Value) : ℚ :=
  Scorer.eval log (Scorer.init shared group) value

/-- Free function `score_group`: sum of
`lgamma(prior_i + count_i) - lgamma(prior_i)` over present keys, plus
`lgamma(alpha) - lgamma(alpha + total)`. -/
def score_group (lgamma : ℚ → ℚ) (shared : Shared) (group : Group) : ℚ :=
  let total : ℕ := scTotal group.counts
  (group.counts.foldl
    (fun score kv =>
      score + (lgamma (shared.betas.getD kv.1 0 * shared.alpha + (kv.2 : ℚ))
        - lgamma (shared.betas.getD kv.1 0 * shared.alpha)))
    0)
  + (lgamma shared.alpha - lgamma (shared.alpha + (total : ℚ)))

/-! ### List toolkit -/

theorem getD_set_self {α : Type} : ∀ (l : List α) (i : ℕ) (a d : α),
    i < l.length → (l.set i a).getD i d = a
  | _ :: _, 0, _, _, _ => rfl
  | _ :: t, i + 1, a, d, h =>
    getD_set_self t i a d (Nat.lt_of_succ_lt_succ (by simpa using h))
  | [], i, a, d, h => absurd h (by simp)

theorem getD_set_ne {α : Type} : ∀ (l : List α) (i j : ℕ) (a d : α),
    i ≠ j → (l.set i a).getD j d = l.getD j d
  | [], _, _, _, _, _ => by simp
  | _ :: _, 0, 0, _, _, h => absurd rfl h
  | _ :: _, 0, _ + 1, _, _, _ => rfl
  | _ :: _, _ + 1, 0, _, _, _ => rfl
  | _ :: t, i + 1, j + 1, a, d, h =>
    getD_set_ne t i j a d (fun hc => h (by simp [hc]))

theorem getD_take {α : Type} : ∀ (l : List α) (n i : ℕ) (d : α),
    i < n → (l.take n).getD i d = l.getD i d
  | [], _, _, _, _ => by simp
  | _ :: _, _ + 1, 0, _, _ => rfl
  | _ :: t, n + 1, i + 1, d, h =>
    getD_take t n i d (Nat.lt_of_succ_lt_succ h)
  | _ :: _, 0, i, d, h => absurd h (Nat.not_lt_zero i)

theorem getD_append_left {α : Type} : ∀ (l₁ l₂ : List α) (i : ℕ) (d : α),
    i < l₁.length → (l₁ ++ l₂).getD i d = l₁.getD i d
  | [], _, i, _, h => absurd h (by simp)
  | _ :: _, _, 0, _, _ => rfl
  | _ :: t, l₂, i + 1, d, h =>
    getD_append_left t l₂ i d (Nat.lt_of_succ_lt_succ (by simpa using h))

theorem getD_append_last {α : Type} : ∀ (l : List α) (a d : α),
    (l ++ [a]).getD l.length d = a
  | [], _, _ => rfl
  | _ :: t, a, d => getD_append_last t a d

theorem getD_map_range {α : Type} (f : ℕ → α) :
    ∀ (n i : ℕ) (d : α), i < n → ((List.range n).map f).getD i d = f i := by
  intro n i d h
  have hlen : i < ((List.range n).map f).length := by simpa using h
  rw [List.getD_eq_getElem _ _ hlen]
  simp

theorem getD_map {α β : Type} (f : α → β) (l : List α) (i : ℕ) (d : β)
    (d' : α) (h : i < l.length) : (l.map f).getD i d = f (l.getD i d') := by
  have hlen : i < (l.map f).length := by simpa using h
  rw [List.getD_eq_getElem _ _ hlen, List.getD_eq_getElem _ _ h]
  simp

theorem set_getD_self {α : Type} : ∀ (l : List α) (i : ℕ) (d : α),
    i < l.length → l.set i (l.getD i d) = l
  | [], i, _, h => absurd h (by simp)
  | _ :: _, 0, _, _ => rfl
  | b :: t, i + 1, d, h => by
    have := set_getD_self t i d (Nat.lt_of_succ_lt_succ (by simpa using h))
    simpa using this

theorem getD_replicate {α : Type} : ∀ (n i : ℕ) (a : α),
    (List.replicate n a).getD i a = a
  | 0, _, _ => by simp [List.getD]
  | _ + 1, 0, _ => rfl
  | n + 1, i + 1, a => getD_replicate n i a

/-! ### SparseCounter lemmas -/

theorem scAdd_snd : ∀ (l : List (Value × ℕ)) (v : Value),
    (scAdd l v).2 = scGetCount l v + 1
  | [], v => by simp [scAdd, scGetCount]
  | (k, c) :: t, v => by
    by_cases h : k = v
    · simp [scAdd, scGetCount, h]
    · simp [scAdd, scGetCount, h, scAdd_snd t v]

theorem scGetCount_scAdd_self : ∀ (l : List (Value × ℕ)) (v : Value),
    scGetCount (scAdd l v).1 v = scGetCount l v + 1
  | [], v => by simp [scAdd, scGetCount]
  | (k, c) :: t, v => by
    by_cases h : k = v
    · simp [scAdd, scGetCount, h]
    · simp [scAdd, scGetCount, h, scGetCount_scAdd_self t v]

theorem scGetCount_scAdd_ne : ∀ (l : List (Value × ℕ)) (v w : Value),
    w ≠ v → scGetCount (scAdd l v).1 w = scGetCount l w
  | [], v, w, h => by simp [scAdd, scGetCount, Ne.symm h]
  | (k, c) :: t, v, w, h => by
    by_cases hk : k = v
    · subst hk
      simp [scAdd, scGetCount, Ne.symm h]
    · simp only [scAdd, if_neg hk]
      by_cases hw : k = w
      · simp [scGetCount, hw]
      · simp [scGetCount, hw, scGetCount_scAdd_ne t v w h]

theorem scTotal_scAdd : ∀ (l : List (Value × ℕ)) (v : Value),
    scTotal (scAdd l v).1 = scTotal l + 1
  | [], v => by simp [scAdd, scTotal]
  | (k, c) :: t, v => by
    by_cases h : k = v
    · simp [scAdd, scTotal, h]
      omega
    · simp [scAdd, scTotal, h]
      have := scTotal_scAdd t v
      simp [scTotal] at this
      omega

theorem scGetCount_eq_zero_of_not_mem : ∀ (l : List (Value × ℕ)) (v : Value),
    v ∉ l.map Prod.fst → scGetCount l v = 0
  | [], v, _ => rfl
  | (k, c) :: t, v, h => by
    have hk : k ≠ v := fun hc => h (by simp [hc])
    have ht : v ∉ t.map Prod.fst := fun hc => h (by simp [hc])
    simp [scGetCount, hk, scGetCount_eq_zero_of_not_mem t v ht]

theorem scRemove_snd : ∀ (l : List (Value × ℕ)) (v : Value),
    (scRemove l v).2 = scGetCount l v - 1
  | [], v => by simp [scRemove, scGetCount]
  | (k, c) :: t, v => by
    by_cases h : k = v
    · by_cases hc : c ≤ 1 <;> simp [scRemove, scGetCount, h, hc]
    · simp [scRemove, scGetCount, h, scRemove_snd t v]

theorem scGetCount_scRemove_self : ∀ (l : List (Value × ℕ)) (v : Value),
    (l.map Prod.fst).Nodup →
    scGetCount (scRemove l v).1 v = scGetCount l v - 1
  | [], v, _ => rfl
  | (k, c) :: t, v, hnd => by
    have hnd' : (t.map Prod.fst).Nodup := (List.nodup_cons.mp (by simpa using hnd)).2
    have hk : k ∉ t.map Prod.fst := (List.nodup_cons.mp (by simpa using hnd)).1
    by_cases h : k = v
    · subst h
      by_cases hc : c ≤ 1
      · have h0 : scGetCount t k = 0 := scGetCount_eq_zero_of_not_mem t k hk
        simp [scRemove, scGetCount, hc, h0]
      · simp [scRemove, scGetCount, hc]
    · simp [scRemove, scGetCount, h, scGetCount_scRemove_self t v hnd']

theorem scGetCount_scRemove_ne : ∀ (l : List (Value × ℕ)) (v w : Value),
    w ≠ v → scGetCount (scRemove l v).1 w = scGetCount l w
  | [], v, w, _ => rfl
  | (k, c) :: t, v, w, h => by
    by_cases hk : k = v
    · subst hk
      by_cases hc : c ≤ 1
      · simp [scRemove, scGetCount, hc, Ne.symm h]
      · simp [scRemove, scGetCount, hc, Ne.symm h]
    · simp only [scRemove, if_neg hk]
      by_cases hw : k = w
      · simp [scGetCount, hw]
      · simp [scGetCount, hw, scGetCount_scRemove_ne t v w h]

theorem scRemove_keys_sublist : ∀ (l : List (Value × ℕ)) (v : Value),
    ((scRemove l v).1.map Prod.fst).Sublist (l.map Prod.fst)
  | [], _ => List.Sublist.refl _
  | (k, c) :: t, v => by
    by_cases h : k = v
    · by_cases hc : c ≤ 1
      · simpa [scRemove, h, hc] using (List.sublist_cons_self k (t.map Prod.fst))
      · simp [scRemove, h, hc]
    · simpa [scRemove, h] using (scRemove_keys_sublist t v).cons₂ k

theorem scAdd_keys_mem : ∀ (l : List (Value × ℕ)) (v w : Value),
    w ∈ (scAdd l v).1.map Prod.fst → w ∈ l.map Prod.fst ∨ w = v
  | [], v, w, h => by
    simp [scAdd] at h
    exact Or.inr h
  | (k, c) :: t, v, w, h => by
    by_cases hk : k = v
    · simp only [scAdd, if_pos hk, List.map_cons, List.mem_cons] at h
      rcases h with h | h
      · exact Or.inl (by simp [h])
      · exact Or.inl (by simp [h])
    · simp only [scAdd, if_neg hk, List.map_cons, List.mem_cons] at h
      rcases h with h | h
      · exact Or.inl (by simp [h])
      · rcases scAdd_keys_mem t v w h with h' | h'
        · exact Or.inl (by simp [h'])
        · exact Or.inr h'

theorem scAdd_keys_nodup : ∀ (l : List (Value × ℕ)) (v : Value),
    (l.map Prod.fst).Nodup → ((scAdd l v).1.map Prod.fst).Nodup
  | [], v, _ => by simp [scAdd]
  | (k, c) :: t, v, hnd => by
    have hnd' : (t.map Prod.fst).Nodup := (List.nodup_cons.mp (by simpa using hnd)).2
    have hk : k ∉ t.map Prod.fst := (List.nodup_cons.mp (by simpa using hnd)).1
    by_cases h : k = v
    · simpa [scAdd, h] using hnd
    · have : k ∉ (scAdd t v).1.map Prod.fst := by
        intro hc
        rcases scAdd_keys_mem t v k hc with h' | h'
        · exact hk h'
        · exact h h'
      simp only [scAdd, if_neg h, List.map_cons, List.nodup_cons]
      exact ⟨this, scAdd_keys_nodup t v hnd'⟩

theorem scRemove_keys_nodup (l : List (Value × ℕ)) (v : Value)
    (hnd : (l.map Prod.fst).Nodup) : ((scRemove l v).1.map Prod.fst).Nodup :=
  (scRemove_keys_sublist l v).nodup hnd

theorem scRemove_scAdd (l : List (Value × ℕ)) (v : Value)
    (hpos : ∀ kv ∈ l, 0 < kv.2) :
    scRemove (scAdd l v).1 v = (l, scGetCount l v) := by
  induction l with
  | nil => simp [scAdd, scRemove, scGetCount]
  | cons kv t ih =>
    obtain ⟨k, c⟩ := kv
    have hc : 0 < c := hpos (k, c) (by simp)
    by_cases h : k = v
    · have : ¬ c + 1 ≤ 1 := by omega
      simp [scAdd, scRemove, scGetCount, h, this]
    · have ih' := ih (fun kv hkv => hpos kv (by simp [hkv]))
      simp [scAdd, scRemove, scGetCount, h, ih']

/-! ### Well-formedness and cache predicates -/

/-- Structural well-formedness of a Mixture: the cache arrays mirror the
groups array (one row per value, one column per group). -/
def Mixture.WF (shared : Shared) (m : Mixture) : Prop :=
  m.scores.length = shared.dim ∧
  m.scores_shift.length = m.groups.length ∧
  ∀ row ∈ m.scores, row.length = m.groups.length

/-- Real sparse-counter states have pairwise-distinct keys. -/
def Group.keysNodup (g : Group) : Prop := (g.counts.map Prod.fst).Nodup

/-- Keys of a real group used with a Mixture of dimension `dim` are in
bounds and its keys are distinct. -/
def Group.keysOK (dim : ℕ) (g : Group) : Prop :=
  (∀ kv ∈ g.counts, kv.1 < dim) ∧ g.keysNodup

/-- The exact cache property of one cell: `scores[v][g]` holds the
closed-form value `log(alpha*betas[v] + count)`. -/
def cellEq (log : ℚ → ℚ) (shared : Shared) (group : Group) (value : Value)
    (s : ℚ) : Prop :=
  s = log (shared.alpha * shared.betas.getD value 0
    + (scGetCount group.counts value : ℚ))

/-- The exact cache property of one shift entry. -/
def shiftEq (log : ℚ → ℚ) (shared : Shared) (group : Group) (s : ℚ) : Prop :=
  s = log (shared.alpha + (scTotal group.counts : ℚ))

/-- A cell is either exact or still the lazily zero-initialized entry of a
group column appended by `add_group` whose value was never touched (in which
case the corresponding count is 0). -/
def cellOK (log : ℚ → ℚ) (shared : Shared) (group : Group) (value : Value)
    (s : ℚ) : Prop :=
  cellEq log shared group value s ∨ (s = 0 ∧ scGetCount group.counts value = 0)

/-- A shift entry is either exact or still the lazily zero-initialized entry
of an untouched appended group (in which case the group is empty). -/
def shiftOK (log : ℚ → ℚ) (shared : Shared) (group : Group) (s : ℚ) : Prop :=
  shiftEq log shared group s ∨ (s = 0 ∧ scTotal group.counts = 0)

/-- Cache invariant actually maintained by the Mixture operations:
well-formedness, distinct keys in every group, and every cache entry exact up
to the lazily-initialized columns of freshly appended groups. -/
def cacheInv (log : ℚ → ℚ) (shared : Shared) (m : Mixture) : Prop :=
  m.WF shared ∧
  (∀ group ∈ m.groups, group.keysNodup) ∧
  (∀ g, g < m.groups.length →
    shiftOK log shared (m.groups.getD g Group.init) (m.scores_shift.getD g 0)) ∧
  (∀ v, v < shared.dim → ∀ g, g < m.groups.length →
    cellOK log shared (m.groups.getD g Group.init) v
      ((m.scores.getD v []).getD g 0))

/-- Full consistency of a Mixture with its groups array: every cache entry
holds its exact closed-form value and the groups are genuine sparse-counter
states with in-bounds keys. -/
def Mixture.consistent (log : ℚ → ℚ) (shared : Shared) (m : Mixture) : Prop :=
  m.WF shared ∧
  (∀ group ∈ m.groups, group.keysOK shared.dim) ∧
  (∀ g, g < m.groups.length →
    shiftEq log shared (m.groups.getD g Group.init) (m.scores_shift.getD g 0)) ∧
  (∀ v, v < shared.dim → ∀ g, g < m.groups.length →
    cellEq log shared (m.groups.getD g Group.init) v
      ((m.scores.getD v []).getD g 0))

instance (shared : Shared) (m : Mixture) : Decidable (m.WF shared) := by
  unfold Mixture.WF
  exact inferInstance

instance (g : Group) : Decidable g.keysNodup := by
  unfold Group.keysNodup
  exact inferInstance

instance (dim : ℕ) (g : Group) : Decidable (g.keysOK dim) := by
  unfold Group.keysOK
  exact inferInstance

instance (log : ℚ → ℚ) (shared : Shared) (m : Mixture) :
    Decidable (cacheInv log shared m) := by
  unfold cacheInv cellOK shiftOK cellEq shiftEq
  exact inferInstance

instance (log : ℚ → ℚ) (shared : Shared) (m : Mixture) :
    Decidable (m.consistent log shared) := by
  unfold Mixture.consistent cellEq shiftEq
  exact inferInstance

/-! ### Explicitly rng-threaded scoring wrappers

The C++ scoring functions receive a mutable `rng_t &` they never read; the
wrappers below thread that state explicitly. -/

/-- Source `Scorer::init` with the rng state threaded. -/
def Scorer.initR {R : Type} (shared : Shared) (group : Group) (rng : R) :
    Scorer × R :=
  (Scorer.init shared group, rng)

/-- Source `Scorer::eval` with the rng state threaded. -/
def Scorer.evalR {R : Type} (log : ℚ → ℚ) (scorer : Scorer) (value : Value)
    (rng : R) : ℚ × R :=
  (Scorer.eval log scorer value, rng)

/-- Source `Mixture::score_value` with the rng state threaded. -/
def Mixture.score_valueR {R : Type} (shared : Shared) (m : Mixture)
    (value : Value) (scores_accum : List ℚ) (rng : R) : List ℚ × R :=
  (m.score_value shared value scores_accum, rng)

/-- Free `score_value` with the rng state threaded through `Scorer::init`
then `Scorer::eval`, exactly as the source passes its `rng` to both. -/
def score_valueR {R : Type} (log : ℚ → ℚ) (shared : Shared) (group : Group)
    (value : Value) (rng : R) : ℚ × R :=
  let p := Scorer.initR shared group rng
  Scorer.evalR log p.1 value p.2

/-- Free `score_group` with the rng state threaded. -/
def score_groupR {R : Type} (lgamma : ℚ → ℚ) (shared : Shared) (group : Group)
    (rng : R) : ℚ × R :=
  (score_group lgamma shared group, rng)

/-! ### Claims -/

/-- C7: `Group.add_value(v)` increments `counts[v]` by one and `count_sum`
by one, and returns the new count of `v`, for every Group state and every
value `v`. -/
theorem C7_group_add_value (g : Group) (v : Value) :
    (g.add_value v).2 = scGetCount g.counts v + 1 ∧
    scGetCount (g.add_value v).1.counts v = scGetCount g.counts v + 1 ∧
    scTotal (g.add_value v).1.counts = scTotal g.counts + 1 :=
  ⟨scAdd_snd g.counts v, scGetCount_scAdd_self g.counts v,
    scTotal_scAdd g.counts v⟩

/-- C8: `score_group` applied to a freshly initialized (empty) group returns
exactly 0, for every Shared and every log-gamma collaborator. -/
theorem C8_score_group_empty (lgamma : ℚ → ℚ) (shared : Shared) :
    score_group lgamma shared Group.init = 0 := by
  simp [score_group, Group.init, scTotal]

/-- C10: scoring never consumes randomness: `Scorer.init`, `Scorer.eval`,
`Mixture.score_value`, the free `score_value` and `score_group` return the
same result for any two rng states and leave the rng state unchanged. -/
theorem C10_scoring_ignores_rng (R : Type) (r1 r2 : R) (log lgamma : ℚ → ℚ)
    (shared : Shared) (group : Group) (scorer : Scorer) (m : Mixture)
    (value : Value) (accum : List ℚ) :
    ((Scorer.initR shared group r1).1 = (Scorer.initR shared group r2).1 ∧
      (Scorer.initR shared group r1).2 = r1) ∧
    ((Scorer.evalR log scorer value r1).1
        = (Scorer.evalR log scorer value r2).1 ∧
      (Scorer.evalR log scorer value r1).2 = r1) ∧
    ((Mixture.score_valueR shared m value accum r1).1
        = (Mixture.score_valueR shared m value accum r2).1 ∧
      (Mixture.score_valueR shared m value accum r1).2 = r1) ∧
    ((score_valueR log shared group value r1).1
        = (score_valueR log shared group value r2).1 ∧
      (score_valueR log shared group value r1).2 = r1) ∧
    ((score_groupR lgamma shared group r1).1
        = (score_groupR lgamma shared group r2).1 ∧
      (score_groupR lgamma shared group r1).2 = r1) :=
  ⟨⟨rfl, rfl⟩, ⟨rfl, rfl⟩, ⟨rfl, rfl⟩, ⟨rfl, rfl⟩, ⟨rfl, rfl⟩⟩

/-- C6: `score_value` accumulates: for a buffer of length `group_count`, the
result entry `g` equals the previous contents plus
`scores[value][g] - scores_shift[g]`, and the buffer length is preserved;
the Mixture itself is read-only in this operation. -/
theorem C6_score_value_accumulates (shared : Shared) (m : Mixture)
    (value : Value) (accum : List ℚ) (hv : value < shared.dim)
    (hlen : accum.length = m.groups.length) :
    (m.score_value shared value accum).length = accum.length ∧
    ∀ g, g < m.groups.length →
      (m.score_value shared value accum).getD g 0 =
        accum.getD g 0 +
          ((m.scores.getD value []).getD g 0 - m.scores_shift.getD g 0) := by
  constructor
  · simp [Mixture.score_value, vector_add_subtract, hlen]
  · intro g hg
    simp only [Mixture.score_value, vector_add_subtract]
    rw [getD_map_range _ _ _ _ hg]

/-- C6 witness: a concrete run of `score_value` on a one-group mixture with
a nonzero accumulator. -/
theorem C6_score_value_accumulates_witness :
    ((0 : ℕ) < Shared.dim ⟨0, 1, 0, [1]⟩ ∧
      [(3 : ℚ)].length = (Mixture.mk [⟨[]⟩] [[5]] [7]).groups.length) ∧
    ((Mixture.score_value ⟨0, 1, 0, [1]⟩ (Mixture.mk [⟨[]⟩] [[5]] [7]) 0
        [(3 : ℚ)]).length = [(3 : ℚ)].length ∧
      ∀ g, g < (Mixture.mk [⟨[]⟩] [[5]] [7]).groups.length →
        (Mixture.score_value ⟨0, 1, 0, [1]⟩ (Mixture.mk [⟨[]⟩] [[5]] [7]) 0
            [(3 : ℚ)]).getD g 0 =
          [(3 : ℚ)].getD g 0 +
            (((Mixture.mk [⟨[]⟩] [[5]] [7]).scores.getD 0 []).getD g 0 -
              (Mixture.mk [⟨[]⟩] [[5]] [7]).scores_shift.getD g 0)) :=
  ⟨⟨by decide, by decide⟩,
    C6_score_value_accumulates ⟨0, 1, 0, [1]⟩ (Mixture.mk [⟨[]⟩] [[5]] [7]) 0
      [(3 : ℚ)] (by decide) (by decide)⟩

/-- Membership of an in-bounds `getD` read. -/
theorem getD_mem {α : Type} (l : List α) (i : ℕ) (d : α) (h : i < l.length) :
    l.getD i d ∈ l := by
  rw [List.getD_eq_getElem _ _ h]
  exact l.getElem_mem _

/-- Writing cell `(value, groupid)` of the score matrix leaves every other
cell unchanged. -/
theorem getD_set_row (scores : List (List ℚ)) (value v2 groupid g2 : ℕ)
    (x : ℚ) (hv : value < scores.length)
    (hne : ¬(v2 = value ∧ g2 = groupid)) :
    ((scores.set value ((scores.getD value []).set groupid x)).getD v2
        []).getD g2 0
      = (scores.getD v2 []).getD g2 0 := by
  by_cases h : v2 = value
  · subst h
    rw [getD_set_self _ _ _ _ hv]
    have hg : groupid ≠ g2 := fun hc => hne ⟨rfl, hc.symm⟩
    exact getD_set_ne _ _ _ _ _ hg
  · rw [getD_set_ne _ _ _ _ _ (Ne.symm h)]

/-- C4: for `groupid` strictly below the last index, `remove_group(groupid)`
moves the former last group's histogram, shift entry and per-value cache
entries into slot `groupid`, shrinks the group array and every cache array by
one, and leaves the other slots in place (so identity by index is not
stable). -/
theorem C4_remove_group_swap (shared : Shared) (m : Mixture) (groupid : ℕ)
    (hWF : m.WF shared) (hg : groupid + 1 < m.groups.length) :
    (Mixture.remove_group shared m groupid).groups.length
        = m.groups.length - 1 ∧
    (Mixture.remove_group shared m groupid).scores_shift.length
        = m.groups.length - 1 ∧
    (Mixture.remove_group shared m groupid).scores.length = shared.dim ∧
    (∀ row ∈ (Mixture.remove_group shared m groupid).scores,
      row.length = m.groups.length - 1) ∧
    (Mixture.remove_group shared m groupid).groups.getD groupid Group.init
        = m.groups.getD (m.groups.length - 1) Group.init ∧
    (Mixture.remove_group shared m groupid).scores_shift.getD groupid 0
        = m.scores_shift.getD (m.groups.length - 1) 0 ∧
    (∀ v, v < shared.dim →
      ((Mixture.remove_group shared m groupid).scores.getD v []).getD
          groupid 0
        = (m.scores.getD v []).getD (m.groups.length - 1) 0) ∧
    (∀ g, g < m.groups.length - 1 → g ≠ groupid →
      (Mixture.remove_group shared m groupid).groups.getD g Group.init
          = m.groups.getD g Group.init ∧
      (Mixture.remove_group shared m groupid).scores_shift.getD g 0
          = m.scores_shift.getD g 0 ∧
      ∀ v, v < shared.dim →
        ((Mixture.remove_group shared m groupid).scores.getD v []).getD g 0
          = (m.scores.getD v []).getD g 0) := by
  obtain ⟨hs, hss, hrow⟩ := hWF
  have hne : groupid ≠ m.groups.length - 1 := by omega
  have hglt : groupid < m.groups.length - 1 := by omega
  have hglen : groupid < m.groups.length := by omega
  simp only [Mixture.remove_group, if_neg hne]
  have hrowlen : ∀ v, v < shared.dim →
      (m.scores.getD v []).length = m.groups.length := by
    intro v hv
    exact hrow _ (getD_mem m.scores v [] (by omega))
  have hsslen : groupid < m.scores_shift.length := by rw [hss]; omega
  refine ⟨?_, ?_, ?_, ?_, ?_, ?_, ?_, ?_⟩
  · rw [List.length_take, List.length_set]
    omega
  · rw [List.length_take, List.length_set, hss]
    omega
  · simp
  · intro row hrow2
    simp only [List.mem_map, List.mem_range] at hrow2
    obtain ⟨v, hv, rfl⟩ := hrow2
    rw [List.length_take, List.length_set, hrowlen v hv]
    omega
  · rw [getD_take _ _ _ _ hglt, getD_set_self _ _ _ _ hglen]
  · rw [getD_take _ _ _ _ hglt, getD_set_self _ _ _ _ hsslen, hss]
  · intro v hv
    rw [getD_map_range _ _ _ _ hv]
    rw [getD_take _ _ _ _ hglt,
      getD_set_self _ _ _ _ (by rw [hrowlen v hv]; omega), hrowlen v hv]
  · intro g hglt2 hgne
    refine ⟨?_, ?_, ?_⟩
    · rw [getD_take _ _ _ _ hglt2, getD_set_ne _ _ _ _ _ (Ne.symm hgne)]
    · rw [getD_take _ _ _ _ hglt2, getD_set_ne _ _ _ _ _ (Ne.symm hgne)]
    · intro v hv
      rw [getD_map_range _ _ _ _ hv]
      rw [getD_take _ _ _ _ hglt2, getD_set_ne _ _ _ _ _ (Ne.symm hgne)]

/-- C4 witness: removing group 0 of a concrete two-group mixture. -/
theorem C4_remove_group_swap_witness :
    ((Mixture.mk [⟨[(0, 1)]⟩, ⟨[]⟩] [[10, 20]] [30, 40]).WF ⟨0, 1, 0, [1]⟩ ∧
      0 + 1 < (Mixture.mk [⟨[(0, 1)]⟩, ⟨[]⟩] [[10, 20]] [30, 40]).groups.length) ∧
    ((Mixture.remove_group ⟨0, 1, 0, [1]⟩
        (Mixture.mk [⟨[(0, 1)]⟩, ⟨[]⟩] [[10, 20]] [30, 40]) 0).groups.length
      = (Mixture.mk [⟨[(0, 1)]⟩, ⟨[]⟩] [[10, 20]] [30, 40]).groups.length - 1 ∧
     (Mixture.remove_group ⟨0, 1, 0, [1]⟩
        (Mixture.mk [⟨[(0, 1)]⟩, ⟨[]⟩] [[10, 20]] [30, 40]) 0).scores_shift.length
      = (Mixture.mk [⟨[(0, 1)]⟩, ⟨[]⟩] [[10, 20]] [30, 40]).groups.length - 1 ∧
     (Mixture.remove_group ⟨0, 1, 0, [1]⟩
        (Mixture.mk [⟨[(0, 1)]⟩, ⟨[]⟩] [[10, 20]] [30, 40]) 0).scores.length
      = Shared.dim ⟨0, 1, 0, [1]⟩ ∧
     (∀ row ∈ (Mixture.remove_group ⟨0, 1, 0, [1]⟩
        (Mixture.mk [⟨[(0, 1)]⟩, ⟨[]⟩] [[10, 20]] [30, 40]) 0).scores,
       row.length
        = (Mixture.mk [⟨[(0, 1)]⟩, ⟨[]⟩] [[10, 20]] [30, 40]).groups.length - 1) ∧
     (Mixture.remove_group ⟨0, 1, 0, [1]⟩
        (Mixture.mk [⟨[(0, 1)]⟩, ⟨[]⟩] [[10, 20]] [30, 40]) 0).groups.getD 0
          Group.init
      = (Mixture.mk [⟨[(0, 1)]⟩, ⟨[]⟩] [[10, 20]] [30, 40]).groups.getD
          ((Mixture.mk [⟨[(0, 1)]⟩, ⟨[]⟩] [[10, 20]] [30, 40]).groups.length - 1)
          Group.init ∧
     (Mixture.remove_group ⟨0, 1, 0, [1]⟩
        (Mixture.mk [⟨[(0, 1)]⟩, ⟨[]⟩] [[10, 20]] [30, 40]) 0).scores_shift.getD 0 0
      = (Mixture.mk [⟨[(0, 1)]⟩, ⟨[]⟩] [[10, 20]] [30, 40]).scores_shift.getD
          ((Mixture.mk [⟨[(0, 1)]⟩, ⟨[]⟩] [[10, 20]] [30, 40]).groups.length - 1) 0 ∧
     (∀ v, v < Shared.dim ⟨0, 1, 0, [1]⟩ →
       ((Mixture.remove_group ⟨0, 1, 0, [1]⟩
          (Mixture.mk [⟨[(0, 1)]⟩, ⟨[]⟩] [[10, 20]] [30, 40]) 0).scores.getD v
            []).getD 0 0
        = ((Mixture.mk [⟨[(0, 1)]⟩, ⟨[]⟩] [[10, 20]] [30, 40]).scores.getD v
            []).getD
            ((Mixture.mk [⟨[(0, 1)]⟩, ⟨[]⟩] [[10, 20]] [30, 40]).groups.length - 1)
            0) ∧
     (∀ g, g < (Mixture.mk [⟨[(0, 1)]⟩, ⟨[]⟩] [[10, 20]] [30, 40]).groups.length - 1 →
        g ≠ 0 →
       (Mixture.remove_group ⟨0, 1, 0, [1]⟩
          (Mixture.mk [⟨[(0, 1)]⟩, ⟨[]⟩] [[10, 20]] [30, 40]) 0).groups.getD g
            Group.init
        = (Mixture.mk [⟨[(0, 1)]⟩, ⟨[]⟩] [[10, 20]] [30, 40]).groups.getD g
            Group.init ∧
       (Mixture.remove_group ⟨0, 1, 0, [1]⟩
          (Mixture.mk [⟨[(0, 1)]⟩, ⟨[]⟩] [[10, 20]] [30, 40]) 0).scores_shift.getD
            g 0
        = (Mixture.mk [⟨[(0, 1)]⟩, ⟨[]⟩] [[10, 20]] [30, 40]).scores_shift.getD g 0 ∧
       ∀ v, v < Shared.dim ⟨0, 1, 0, [1]⟩ →
         ((Mixture.remove_group ⟨0, 1, 0, [1]⟩
            (Mixture.mk [⟨[(0, 1)]⟩, ⟨[]⟩] [[10, 20]] [30, 40]) 0).scores.getD v
              []).getD g 0
          = ((Mixture.mk [⟨[(0, 1)]⟩, ⟨[]⟩] [[10, 20]] [30, 40]).scores.getD v
              []).getD g 0)) :=
  ⟨⟨by decide, by decide⟩,
    C4_remove_group_swap ⟨0, 1, 0, [1]⟩
      (Mixture.mk [⟨[(0, 1)]⟩, ⟨[]⟩] [[10, 20]] [30, 40]) 0
      (by decide) (by decide)⟩

/-- C5: `add_value(g, v)` and `remove_value(g, v)` touch only the cache cell
`scores[v][g]`, the entry `scores_shift[g]` and group `g`: every other cache
cell, shift entry and group is left unchanged. -/
theorem C5_add_remove_value_frame (log : ℚ → ℚ) (shared : Shared)
    (m : Mixture) (groupid : ℕ) (value : Value) (hWF : m.WF shared)
    (hg : groupid < m.groups.length) (hv : value < shared.dim) :
    (∀ v2, v2 < shared.dim → ∀ g2, g2 < m.groups.length →
      (v2, g2) ≠ (value, groupid) →
      ((m.add_value log shared groupid value).scores.getD v2 []).getD g2 0
          = (m.scores.getD v2 []).getD g2 0 ∧
      ((m.remove_value log shared groupid value).scores.getD v2 []).getD g2 0
          = (m.scores.getD v2 []).getD g2 0) ∧
    (∀ g2, g2 < m.groups.length → g2 ≠ groupid →
      (m.add_value log shared groupid value).scores_shift.getD g2 0
          = m.scores_shift.getD g2 0 ∧
      (m.add_value log shared groupid value).groups.getD g2 Group.init
          = m.groups.getD g2 Group.init ∧
      (m.remove_value log shared groupid value).scores_shift.getD g2 0
          = m.scores_shift.getD g2 0 ∧
      (m.remove_value log shared groupid value).groups.getD g2 Group.init
          = m.groups.getD g2 Group.init) := by
  obtain ⟨hs, hss, hrow⟩ := hWF
  have hvlen : value < m.scores.length := lt_of_lt_of_eq hv hs.symm
  constructor
  · intro v2 hv2 g2 hg2 hne
    have hne' : ¬(v2 = value ∧ g2 = groupid) := by
      rintro ⟨rfl, rfl⟩
      exact hne rfl
    constructor
    · simp only [Mixture.add_value]
      exact getD_set_row m.scores value v2 groupid g2 _ hvlen hne'
    · simp only [Mixture.remove_value]
      exact getD_set_row m.scores value v2 groupid g2 _ hvlen hne'
  · intro g2 hg2 hgne
    have h1 : groupid ≠ g2 := Ne.symm hgne
    refine ⟨?_, ?_, ?_, ?_⟩
    · simp only [Mixture.add_value]
      exact getD_set_ne _ _ _ _ _ h1
    · simp only [Mixture.add_value]
      exact getD_set_ne _ _ _ _ _ h1
    · simp only [Mixture.remove_value]
      exact getD_set_ne _ _ _ _ _ h1
    · simp only [Mixture.remove_value]
      exact getD_set_ne _ _ _ _ _ h1

/-- C5 witness: a concrete two-group, two-value mixture, touching cell
(0, 0). -/
theorem C5_add_remove_value_frame_witness :
    ((Mixture.mk [⟨[(0, 1)]⟩, ⟨[]⟩] [[10, 20], [11, 21]] [30, 40]).WF
        ⟨0, 1, 0, [1, 1]⟩ ∧
      0 < (Mixture.mk [⟨[(0, 1)]⟩, ⟨[]⟩] [[10, 20], [11, 21]] [30, 40]).groups.length ∧
      0 < Shared.dim ⟨0, 1, 0, [1, 1]⟩) ∧
    ((∀ v2, v2 < Shared.dim ⟨0, 1, 0, [1, 1]⟩ →
      ∀ g2, g2 < (Mixture.mk [⟨[(0, 1)]⟩, ⟨[]⟩] [[10, 20], [11, 21]]
          [30, 40]).groups.length →
      ((v2 : ℕ), g2) ≠ ((0 : ℕ), (0 : ℕ)) →
      ((Mixture.add_value id ⟨0, 1, 0, [1, 1]⟩
          (Mixture.mk [⟨[(0, 1)]⟩, ⟨[]⟩] [[10, 20], [11, 21]] [30, 40]) 0
          0).scores.getD v2 []).getD g2 0
        = ((Mixture.mk [⟨[(0, 1)]⟩, ⟨[]⟩] [[10, 20], [11, 21]]
            [30, 40]).scores.getD v2 []).getD g2 0 ∧
      ((Mixture.remove_value id ⟨0, 1, 0, [1, 1]⟩
          (Mixture.mk [⟨[(0, 1)]⟩, ⟨[]⟩] [[10, 20], [11, 21]] [30, 40]) 0
          0).scores.getD v2 []).getD g2 0
        = ((Mixture.mk [⟨[(0, 1)]⟩, ⟨[]⟩] [[10, 20], [11, 21]]
            [30, 40]).scores.getD v2 []).getD g2 0) ∧
    (∀ g2, g2 < (Mixture.mk [⟨[(0, 1)]⟩, ⟨[]⟩] [[10, 20], [11, 21]]
        [30, 40]).groups.length → g2 ≠ 0 →
      (Mixture.add_value id ⟨0, 1, 0, [1, 1]⟩
          (Mixture.mk [⟨[(0, 1)]⟩, ⟨[]⟩] [[10, 20], [11, 21]] [30, 40]) 0
          0).scores_shift.getD g2 0
        = (Mixture.mk [⟨[(0, 1)]⟩, ⟨[]⟩] [[10, 20], [11, 21]]
            [30, 40]).scores_shift.getD g2 0 ∧
      (Mixture.add_value id ⟨0, 1, 0, [1, 1]⟩
          (Mixture.mk [⟨[(0, 1)]⟩, ⟨[]⟩] [[10, 20], [11, 21]] [30, 40]) 0
          0).groups.getD g2 Group.init
        = (Mixture.mk [⟨[(0, 1)]⟩, ⟨[]⟩] [[10, 20], [11, 21]]
            [30, 40]).groups.getD g2 Group.init ∧
      (Mixture.remove_value id ⟨0, 1, 0, [1, 1]⟩
          (Mixture.mk [⟨[(0, 1)]⟩, ⟨[]⟩] [[10, 20], [11, 21]] [30, 40]) 0
          0).scores_shift.getD g2 0
        = (Mixture.mk [⟨[(0, 1)]⟩, ⟨[]⟩] [[10, 20], [11, 21]]
            [30, 40]).scores_shift.getD g2 0 ∧
      (Mixture.remove_value id ⟨0, 1, 0, [1, 1]⟩
          (Mixture.mk [⟨[(0, 1)]⟩, ⟨[]⟩] [[10, 20], [11, 21]] [30, 40]) 0
          0).groups.getD g2 Group.init
        = (Mixture.mk [⟨[(0, 1)]⟩, ⟨[]⟩] [[10, 20], [11, 21]]
            [30, 40]).groups.getD g2 Group.init)) :=
  ⟨⟨by decide, by decide, by decide⟩,
    C5_add_remove_value_frame id ⟨0, 1, 0, [1, 1]⟩
      (Mixture.mk [⟨[(0, 1)]⟩, ⟨[]⟩] [[10, 20], [11, 21]] [30, 40]) 0 0
      (by decide) (by decide) (by decide)⟩

/-- Projection of a literal Group. -/
theorem Group.counts_mk (l : List (Value × ℕ)) : (Group.mk l).counts = l := rfl

/-- Structure eta for Group. -/
theorem Group.eta (g : Group) : Group.mk g.counts = g := rfl

/-- C3 (amended): `add_value(g, v)` followed immediately by
`remove_value(g, v)` always restores the groups array exactly — hence
`counts[v]` and `count_sum` — and always leaves every cache entry other than
`scores[v][g]` and `scores_shift[g]` unchanged; if moreover those two entries
held their closed-form values before the add, the entire Mixture state (the
two overwritten entries included) is restored exactly.  The group's counts
are genuine sparse-counter states (positive counts). -/
theorem C3_add_remove_value_roundtrip (log : ℚ → ℚ) (shared : Shared)
    (m : Mixture) (groupid : ℕ) (value : Value) (hWF : m.WF shared)
    (hg : groupid < m.groups.length) (hv : value < shared.dim)
    (hpos : ∀ kv ∈ (m.groups.getD groupid Group.init).counts, 0 < kv.2) :
    (Mixture.remove_value log shared
        (Mixture.add_value log shared m groupid value) groupid value).groups
      = m.groups ∧
    (∀ v2, v2 < shared.dim → ∀ g2, g2 < m.groups.length →
      (v2, g2) ≠ (value, groupid) →
      ((Mixture.remove_value log shared
          (Mixture.add_value log shared m groupid value) groupid
          value).scores.getD v2 []).getD g2 0
        = (m.scores.getD v2 []).getD g2 0) ∧
    (∀ g2, g2 < m.groups.length → g2 ≠ groupid →
      (Mixture.remove_value log shared
          (Mixture.add_value log shared m groupid value) groupid
          value).scores_shift.getD g2 0
        = m.scores_shift.getD g2 0) ∧
    ((m.scores.getD value []).getD groupid 0
        = log (shared.alpha * shared.betas.getD value 0
          + (scGetCount (m.groups.getD groupid Group.init).counts value : ℚ))
      → m.scores_shift.getD groupid 0
        = log (shared.alpha
          + (scTotal (m.groups.getD groupid Group.init).counts : ℚ))
      → Mixture.remove_value log shared
          (Mixture.add_value log shared m groupid value) groupid value
        = m) := by
  obtain ⟨hs, hss, hrow⟩ := hWF
  have hvlen : value < m.scores.length := lt_of_lt_of_eq hv hs.symm
  have hsslen : groupid < m.scores_shift.length := lt_of_lt_of_eq hg hss.symm
  have hrowlen : (m.scores.getD value []).length = m.groups.length :=
    hrow _ (getD_mem _ _ _ hvlen)
  have hgrow : groupid < (m.scores.getD value []).length :=
    lt_of_lt_of_eq hg hrowlen.symm
  have hsc := scRemove_scAdd (m.groups.getD groupid Group.init).counts value hpos
  simp only [Mixture.add_value, Mixture.remove_value, Group.counts_mk]
  rw [getD_set_self m.groups groupid _ Group.init hg]
  simp only [Group.counts_mk]
  rw [hsc]
  rw [getD_set_self m.scores value _ [] hvlen]
  simp only [List.set_set, Group.eta]
  refine ⟨?_, ?_, ?_, ?_⟩
  · exact set_getD_self m.groups groupid Group.init hg
  · intro v2 hv2 g2 hg2 hne
    have hne' : ¬(v2 = value ∧ g2 = groupid) := by
      rintro ⟨rfl, rfl⟩
      exact hne rfl
    exact getD_set_row m.scores value v2 groupid g2 _ hvlen hne'
  · intro g2 hg2 hgne
    exact getD_set_ne _ _ _ _ _ (Ne.symm hgne)
  · intro hcell hshift
    rw [← hcell, ← hshift]
    rw [set_getD_self m.groups groupid Group.init hg,
      set_getD_self _ _ _ hgrow,
      set_getD_self m.scores value [] hvlen,
      set_getD_self m.scores_shift groupid 0 hsslen]

/-- C3 witness: a concrete consistent one-group mixture. -/
theorem C3_add_remove_value_roundtrip_witness :
    ((Mixture.init id ⟨0, 1, 0, [2]⟩ ⟨[⟨[]⟩], [], []⟩).WF ⟨0, 1, 0, [2]⟩ ∧
      0 < (Mixture.init id ⟨0, 1, 0, [2]⟩ ⟨[⟨[]⟩], [], []⟩).groups.length ∧
      0 < Shared.dim ⟨0, 1, 0, [2]⟩ ∧
      (∀ kv ∈ ((Mixture.init id ⟨0, 1, 0, [2]⟩
          ⟨[⟨[]⟩], [], []⟩).groups.getD 0 Group.init).counts, 0 < kv.2)) ∧
    ((Mixture.remove_value id ⟨0, 1, 0, [2]⟩
        (Mixture.add_value id ⟨0, 1, 0, [2]⟩
          (Mixture.init id ⟨0, 1, 0, [2]⟩ ⟨[⟨[]⟩], [], []⟩) 0 0) 0 0).groups
      = (Mixture.init id ⟨0, 1, 0, [2]⟩ ⟨[⟨[]⟩], [], []⟩).groups ∧
    (∀ v2, v2 < Shared.dim ⟨0, 1, 0, [2]⟩ →
      ∀ g2, g2 < (Mixture.init id ⟨0, 1, 0, [2]⟩
        ⟨[⟨[]⟩], [], []⟩).groups.length →
      ((v2 : ℕ), g2) ≠ ((0 : ℕ), (0 : ℕ)) →
      ((Mixture.remove_value id ⟨0, 1, 0, [2]⟩
          (Mixture.add_value id ⟨0, 1, 0, [2]⟩
            (Mixture.init id ⟨0, 1, 0, [2]⟩ ⟨[⟨[]⟩], [], []⟩) 0 0)
          0 0).scores.getD v2 []).getD g2 0
        = ((Mixture.init id ⟨0, 1, 0, [2]⟩
            ⟨[⟨[]⟩], [], []⟩).scores.getD v2 []).getD g2 0) ∧
    (∀ g2, g2 < (Mixture.init id ⟨0, 1, 0, [2]⟩
        ⟨[⟨[]⟩], [], []⟩).groups.length → g2 ≠ 0 →
      (Mixture.remove_value id ⟨0, 1, 0, [2]⟩
          (Mixture.add_value id ⟨0, 1, 0, [2]⟩
            (Mixture.init id ⟨0, 1, 0, [2]⟩ ⟨[⟨[]⟩], [], []⟩) 0 0)
          0 0).scores_shift.getD g2 0
        = (Mixture.init id ⟨0, 1, 0, [2]⟩
            ⟨[⟨[]⟩], [], []⟩).scores_shift.getD g2 0) ∧
    (((Mixture.init id ⟨0, 1, 0, [2]⟩ ⟨[⟨[]⟩], [], []⟩).scores.getD 0
          []).getD 0 0
        = id ((⟨0, 1, 0, [2]⟩ : Shared).alpha
          * (⟨0, 1, 0, [2]⟩ : Shared).betas.getD 0 0
          + (scGetCount ((Mixture.init id ⟨0, 1, 0, [2]⟩
              ⟨[⟨[]⟩], [], []⟩).groups.getD 0 Group.init).counts 0 : ℚ))
      → (Mixture.init id ⟨0, 1, 0, [2]⟩
            ⟨[⟨[]⟩], [], []⟩).scores_shift.getD 0 0
        = id ((⟨0, 1, 0, [2]⟩ : Shared).alpha
          + (scTotal ((Mixture.init id ⟨0, 1, 0, [2]⟩
              ⟨[⟨[]⟩], [], []⟩).groups.getD 0 Group.init).counts : ℚ))
      → Mixture.remove_value id ⟨0, 1, 0, [2]⟩
          (Mixture.add_value id ⟨0, 1, 0, [2]⟩
            (Mixture.init id ⟨0, 1, 0, [2]⟩ ⟨[⟨[]⟩], [], []⟩) 0 0) 0 0
        = Mixture.init id ⟨0, 1, 0, [2]⟩ ⟨[⟨[]⟩], [], []⟩)) :=
  ⟨⟨by decide, by decide, by decide, by decide⟩,
    C3_add_remove_value_roundtrip id ⟨0, 1, 0, [2]⟩
      (Mixture.init id ⟨0, 1, 0, [2]⟩ ⟨[⟨[]⟩], [], []⟩) 0 0
      (by decide) (by decide) (by decide) (by decide)⟩

/-- C3 counterexample: starting from an init'd empty mixture, `add_group`
leaves the new cache column zero-initialized; `add_value(0,0)` then
`remove_value(0,0)` on that state overwrites `scores[0][0]` with the
closed-form value `log(alpha*betas[0] + 0)` (= 2 with `log = id`,
`alpha = 1`, `betas = [2]`), not the pre-add value 0, refuting the claim for
every Mixture state. -/
theorem C3_add_remove_value_roundtrip_counterexample :
    ¬ (((Mixture.remove_value id ⟨0, 1, 0, [2]⟩
          (Mixture.add_value id ⟨0, 1, 0, [2]⟩
            (Mixture.add_group ⟨0, 1, 0, [2]⟩
              (Mixture.init id ⟨0, 1, 0, [2]⟩ ⟨[], [], []⟩)) 0 0)
          0 0).scores.getD 0 []).getD 0 0
        = ((Mixture.add_group ⟨0, 1, 0, [2]⟩
            (Mixture.init id ⟨0, 1, 0, [2]⟩ ⟨[], [], []⟩)).scores.getD 0
              []).getD 0 0) := by
  simp [Mixture.init, Mixture.add_group, Mixture.add_value,
    Mixture.remove_value, Shared.dim, scGetCount, scTotal, scAdd, scRemove,
    Group.init]

/-- Indexed-accumulate folds preserve the buffer length. -/
theorem foldl_set_length (u : List ℚ → (Value × ℕ) → ℚ) :
    ∀ (l : List (Value × ℕ)) (base : List ℚ),
      (l.foldl (fun s kv => s.set kv.1 (u s kv)) base).length = base.length
  | [], _ => rfl
  | kv :: t, base => by
    rw [List.foldl_cons, foldl_set_length u t _, List.length_set]

/-- An indexed-accumulate fold over an association list with distinct,
in-bounds keys adds `g` of the stored count at each index. -/
theorem foldl_set_add_getD (g : ℕ → ℚ) (hg : g 0 = 0) :
    ∀ (l : List (Value × ℕ)) (base : List ℚ) (v : ℕ),
      (l.map Prod.fst).Nodup → (∀ kv ∈ l, kv.1 < base.length) →
      v < base.length →
      (l.foldl (fun s kv => s.set kv.1 (s.getD kv.1 0 + g kv.2)) base).getD v 0
        = base.getD v 0 + g (scGetCount l v)
  | [], base, v, _, _, _ => by simp [scGetCount, hg]
  | (k, c) :: t, base, v, hnd, hkeys, hv => by
    have hk : k ∉ t.map Prod.fst := (List.nodup_cons.mp (by simpa using hnd)).1
    have hnd' : (t.map Prod.fst).Nodup :=
      (List.nodup_cons.mp (by simpa using hnd)).2
    have hklen : k < base.length := by simpa using hkeys (k, c) (by simp)
    have hkeys' : ∀ kv ∈ t, kv.1 < (base.set k (base.getD k 0 + g c)).length := by
      intro kv hkv
      rw [List.length_set]
      exact hkeys kv (by simp [hkv])
    have hv' : v < (base.set k (base.getD k 0 + g c)).length := by
      rw [List.length_set]
      exact hv
    rw [List.foldl_cons,
      foldl_set_add_getD g hg t _ v hnd' hkeys' hv']
    by_cases h : k = v
    · subst h
      rw [getD_set_self _ _ _ _ hklen,
        scGetCount_eq_zero_of_not_mem t k hk]
      simp [scGetCount, hg]
    · rw [getD_set_ne _ _ _ _ _ h]
      simp [scGetCount, h]

/-- C9: `Sampler.init` builds a concentration buffer of length `dim + 1`
whose entry `v < dim` is `alpha*betas[v]` plus the group's count of `v` and
whose last entry is `alpha*beta0`, and hands exactly that buffer to the
Dirichlet-sampling primitive in place. -/
theorem C9_sampler_concentration (shared : Shared) (group : Group)
    (hkeys : ∀ kv ∈ group.counts, kv.1 < shared.dim)
    (hnd : group.keysNodup) :
    (Sampler.init_probs shared group).length = shared.dim + 1 ∧
    (∀ v, v < shared.dim →
      (Sampler.init_probs shared group).getD v 0
        = shared.alpha * shared.betas.getD v 0
          + (scGetCount group.counts v : ℚ)) ∧
    (Sampler.init_probs shared group).getD shared.dim 0
        = shared.alpha * shared.beta0 ∧
    (∀ sampleDirichlet, Sampler.init sampleDirichlet shared group
        = ⟨sampleDirichlet (Sampler.init_probs shared group)⟩) := by
  have hbaselen :
      (shared.betas.map (fun beta => beta * shared.alpha)).length
        = shared.dim := by
    simp [Shared.dim]
  have hkeysb : ∀ kv ∈ group.counts,
      kv.1 < (shared.betas.map (fun beta => beta * shared.alpha)).length := by
    intro kv hkv
    rw [hbaselen]
    exact hkeys kv hkv
  have hfoldlen :
      (group.counts.foldl
          (fun ps kv => ps.set kv.1 (ps.getD kv.1 0 + (kv.2 : ℚ)))
          (shared.betas.map (fun beta => beta * shared.alpha))).length
        = shared.dim := by
    rw [foldl_set_length (fun s kv => s.getD kv.1 0 + (kv.2 : ℚ)), hbaselen]
  refine ⟨?_, ?_, ?_, ?_⟩
  · rw [Sampler.init_probs, List.length_append, hfoldlen]
    rfl
  · intro v hv
    have hvb : v < (shared.betas.map (fun beta => beta * shared.alpha)).length := by
      rw [hbaselen]
      exact hv
    rw [Sampler.init_probs,
      getD_append_left _ _ _ _ (by rw [hfoldlen]; exact hv),
      foldl_set_add_getD (fun n => (n : ℚ)) (by simp) group.counts _ v
        hnd hkeysb hvb,
      getD_map _ _ _ _ 0 (by simpa [Shared.dim] using hv)]
    rw [mul_comm]
  · have := getD_append_last
      (group.counts.foldl
        (fun ps kv => ps.set kv.1 (ps.getD kv.1 0 + (kv.2 : ℚ)))
        (shared.betas.map (fun beta => beta * shared.alpha)))
      (shared.beta0 * shared.alpha) 0
    rw [hfoldlen] at this
    rw [Sampler.init_probs, this, mul_comm]
  · intro sampleDirichlet
    rfl

/-- C9 witness: a group with one observation of value 0 in dimension 2. -/
theorem C9_sampler_concentration_witness :
    ((∀ kv ∈ (Group.mk [(0, 1)]).counts, kv.1 < Shared.dim ⟨0, 1, 0, [1, 1]⟩) ∧
      (Group.mk [(0, 1)]).keysNodup) ∧
    ((Sampler.init_probs ⟨0, 1, 0, [1, 1]⟩ (Group.mk [(0, 1)])).length
        = Shared.dim ⟨0, 1, 0, [1, 1]⟩ + 1 ∧
      (∀ v, v < Shared.dim ⟨0, 1, 0, [1, 1]⟩ →
        (Sampler.init_probs ⟨0, 1, 0, [1, 1]⟩ (Group.mk [(0, 1)])).getD v 0
          = (⟨0, 1, 0, [1, 1]⟩ : Shared).alpha
              * (⟨0, 1, 0, [1, 1]⟩ : Shared).betas.getD v 0
            + (scGetCount (Group.mk [(0, 1)]).counts v : ℚ)) ∧
      (Sampler.init_probs ⟨0, 1, 0, [1, 1]⟩ (Group.mk [(0, 1)])).getD
          (Shared.dim ⟨0, 1, 0, [1, 1]⟩) 0
        = (⟨0, 1, 0, [1, 1]⟩ : Shared).alpha
            * (⟨0, 1, 0, [1, 1]⟩ : Shared).beta0 ∧
      (∀ sampleDirichlet,
        Sampler.init sampleDirichlet ⟨0, 1, 0, [1, 1]⟩ (Group.mk [(0, 1)])
          = ⟨sampleDirichlet
              (Sampler.init_probs ⟨0, 1, 0, [1, 1]⟩ (Group.mk [(0, 1)]))⟩)) :=
  ⟨⟨by decide, by decide⟩,
    C9_sampler_concentration ⟨0, 1, 0, [1, 1]⟩ (Group.mk [(0, 1)])
      (by decide) (by decide)⟩

/-- C2: for a Mixture consistent with its groups array, the g-th entry of
`score_value(value, accum)` with `accum` zero-initialized equals
`Scorer.init(group[g]); Scorer.eval(value)` — exactly, in the
exact-arithmetic embedding, for any `log` collaborator satisfying the
quotient law on positive arguments (as the real logarithm does, the
hyperparameters being positive). -/
theorem C2_batched_eq_pergroup (log : ℚ → ℚ) (shared : Shared) (m : Mixture)
    (value : Value) (g : ℕ) (hcons : m.consistent log shared)
    (hv : value < shared.dim) (hg : g < m.groups.length)
    (halpha : 0 < shared.alpha) (hbetas : ∀ b ∈ shared.betas, 0 < b)
    (hlog : ∀ a b : ℚ, 0 < a → 0 < b → log (a / b) = log a - log b) :
    (m.score_value shared value (List.replicate m.groups.length 0)).getD g 0
      = Scorer.eval log (Scorer.init shared (m.groups.getD g Group.init))
          value := by
  obtain ⟨⟨hs, hss, hrow⟩, hgOK, hshift, hcell⟩ := hcons
  have hGmem : m.groups.getD g Group.init ∈ m.groups := getD_mem _ _ _ hg
  obtain ⟨hkeys, hnd⟩ := hgOK _ hGmem
  have hcellg := hcell value hv g hg
  have hshiftg := hshift g hg
  unfold cellEq at hcellg
  unfold shiftEq at hshiftg
  have hvbetas : value < shared.betas.length := hv
  have hbeta : 0 < shared.betas.getD value 0 :=
    hbetas _ (getD_mem shared.betas value 0 hvbetas)
  have hT : (0 : ℚ) ≤ ((scTotal (m.groups.getD g Group.init).counts : ℕ) : ℚ) := by
    positivity
  have hB : 0 < shared.alpha
      + ((scTotal (m.groups.getD g Group.init).counts : ℕ) : ℚ) := by
    linarith
  have hA : 0 < shared.alpha * shared.betas.getD value 0
      + ((scGetCount (m.groups.getD g Group.init).counts value : ℕ) : ℚ) := by
    have h1 : 0 < shared.alpha * shared.betas.getD value 0 :=
      mul_pos halpha hbeta
    have h2 : (0 : ℚ) ≤
        ((scGetCount (m.groups.getD g Group.init).counts value : ℕ) : ℚ) := by
      positivity
    linarith
  simp only [Mixture.score_value, vector_add_subtract]
  rw [getD_map_range _ _ _ _ hg, getD_replicate, hcellg, hshiftg]
  simp only [Scorer.eval, Scorer.init]
  have hbaselen :
      (shared.betas.map (fun beta =>
        shared.alpha
          / (shared.alpha
            + ((scTotal (m.groups.getD g Group.init).counts : ℕ) : ℚ))
          * beta)).length = shared.dim := by
    simp [Shared.dim]
  rw [foldl_set_add_getD
      (fun n => 1 / (shared.alpha
        + ((scTotal (m.groups.getD g Group.init).counts : ℕ) : ℚ)) * (n : ℚ))
      (by simp) (m.groups.getD g Group.init).counts _ value hnd
      (by rw [hbaselen]; exact hkeys) (by rw [hbaselen]; exact hv),
    getD_map _ _ _ _ 0 hvbetas]
  have halg : shared.alpha
        / (shared.alpha
          + ((scTotal (m.groups.getD g Group.init).counts : ℕ) : ℚ))
        * shared.betas.getD value 0
      + 1 / (shared.alpha
          + ((scTotal (m.groups.getD g Group.init).counts : ℕ) : ℚ))
        * ((scGetCount (m.groups.getD g Group.init).counts value : ℕ) : ℚ)
      = (shared.alpha * shared.betas.getD value 0
          + ((scGetCount (m.groups.getD g Group.init).counts value : ℕ) : ℚ))
        / (shared.alpha
          + ((scTotal (m.groups.getD g Group.init).counts : ℕ) : ℚ)) := by
    field_simp
  rw [halg, hlog _ _ hA hB]
  ring

/-- C2 witness: a consistent one-group mixture, with the constant-zero
collaborator (which satisfies the quotient law). -/
theorem C2_batched_eq_pergroup_witness :
    ((Mixture.init (fun _ => (0 : ℚ)) ⟨0, 1, 0, [1]⟩
        ⟨[⟨[]⟩], [], []⟩).consistent (fun _ => (0 : ℚ)) ⟨0, 1, 0, [1]⟩ ∧
      0 < Shared.dim ⟨0, 1, 0, [1]⟩ ∧
      0 < (Mixture.init (fun _ => (0 : ℚ)) ⟨0, 1, 0, [1]⟩
        ⟨[⟨[]⟩], [], []⟩).groups.length ∧
      0 < (⟨0, 1, 0, [1]⟩ : Shared).alpha ∧
      (∀ b ∈ (⟨0, 1, 0, [1]⟩ : Shared).betas, 0 < b) ∧
      (∀ a b : ℚ, 0 < a → 0 < b →
        (fun _ => (0 : ℚ)) (a / b)
          = (fun _ => (0 : ℚ)) a - (fun _ => (0 : ℚ)) b)) ∧
    (Mixture.score_value ⟨0, 1, 0, [1]⟩
        (Mixture.init (fun _ => (0 : ℚ)) ⟨0, 1, 0, [1]⟩ ⟨[⟨[]⟩], [], []⟩) 0
        (List.replicate (Mixture.init (fun _ => (0 : ℚ)) ⟨0, 1, 0, [1]⟩
          ⟨[⟨[]⟩], [], []⟩).groups.length 0)).getD 0 0
      = Scorer.eval (fun _ => (0 : ℚ))
          (Scorer.init ⟨0, 1, 0, [1]⟩
            ((Mixture.init (fun _ => (0 : ℚ)) ⟨0, 1, 0, [1]⟩
              ⟨[⟨[]⟩], [], []⟩).groups.getD 0 Group.init)) 0 :=
  ⟨⟨by decide, by decide, by decide, by decide, by decide,
      fun a b ha hb => by norm_num⟩,
    C2_batched_eq_pergroup (fun _ => (0 : ℚ)) ⟨0, 1, 0, [1]⟩
      (Mixture.init (fun _ => (0 : ℚ)) ⟨0, 1, 0, [1]⟩ ⟨[⟨[]⟩], [], []⟩) 0 0
      (by decide) (by decide) (by decide) (by decide) (by decide)
      (fun a b ha hb => by norm_num)⟩

/-! ### Operation sequences for the cache invariant -/

/-- The four incremental Mixture operations. -/
inductive Op
  | addGroup
  | removeGroup (groupid : ℕ)
  | addValue (groupid : ℕ) (value : Value)
  | removeValue (groupid : ℕ) (value : Value)
deriving DecidableEq

/-- Apply one operation. -/
def applyOp (log : ℚ → ℚ) (shared : Shared) (m : Mixture) : Op → Mixture
  | .addGroup => m.add_group shared
  | .removeGroup groupid => m.remove_group shared groupid
  | .addValue groupid value => m.add_value log shared groupid value
  | .removeValue groupid value => m.remove_value log shared groupid value

/-- The always-on `DIST_ASSERT1` preconditions of each operation. -/
def validOp (shared : Shared) (m : Mixture) : Op → Prop
  | .addGroup => True
  | .removeGroup groupid => groupid < m.groups.length
  | .addValue groupid value =>
      groupid < m.groups.length ∧ value < shared.dim
  | .removeValue groupid value =>
      groupid < m.groups.length ∧ value < shared.dim

instance (shared : Shared) (m : Mixture) (o : Op) :
    Decidable (validOp shared m o) := by
  cases o <;> simp only [validOp] <;> infer_instance

/-- Every operation of the sequence meets its precondition in the state it
is applied to. -/
def validSeq (log : ℚ → ℚ) (shared : Shared) : Mixture → List Op → Prop
  | _, [] => True
  | m, o :: t =>
      validOp shared m o ∧ validSeq log shared (applyOp log shared m o) t

instance validSeqDec (log : ℚ → ℚ) (shared : Shared) :
    (m : Mixture) → (ops : List Op) → Decidable (validSeq log shared m ops)
  | _, [] => isTrue trivial
  | m, o :: t =>
    @instDecidableAnd _ _ _ (validSeqDec log shared (applyOp log shared m o) t)

/-- Apply a whole sequence of operations. -/
def applySeq (log : ℚ → ℚ) (shared : Shared) (m : Mixture)
    (ops : List Op) : Mixture :=
  ops.foldl (applyOp log shared) m

/-- Source `Mixture.init` establishes the cache invariant (with every cell exact). -/
theorem cacheInv_init (log : ℚ → ℚ) (shared : Shared) (m : Mixture)
    (hnd : ∀ group ∈ m.groups, group.keysNodup) :
    cacheInv log shared (m.init log shared) := by
  refine ⟨⟨by simp [Mixture.init], by simp [Mixture.init], ?_⟩, ?_, ?_, ?_⟩
  · intro row hrowmem
    simp only [Mixture.init, List.mem_map, List.mem_range] at hrowmem
    obtain ⟨v, hv, rfl⟩ := hrowmem
    simp [Mixture.init]
  · simpa [Mixture.init] using hnd
  · intro g hg
    simp only [Mixture.init] at hg ⊢
    rw [getD_map _ _ _ _ Group.init hg]
    exact Or.inl rfl
  · intro v hv g hg
    simp only [Mixture.init] at hg ⊢
    rw [getD_map_range _ _ _ _ hv, getD_map _ _ _ _ Group.init hg]
    exact Or.inl rfl

/-- Source `add_group` preserves the cache invariant: the appended column is
zero-initialized and its group is empty. -/
theorem cacheInv_addGroup (log : ℚ → ℚ) (shared : Shared) (m : Mixture)
    (h : cacheInv log shared m) :
    cacheInv log shared (m.add_group shared) := by
  obtain ⟨⟨hs, hss, hrow⟩, hnodup, hshift, hcell⟩ := h
  have hrowlen : ∀ v, v < shared.dim →
      (m.scores.getD v []).length = m.groups.length := by
    intro v hv
    exact hrow _ (getD_mem m.scores v [] (lt_of_lt_of_eq hv hs.symm))
  refine ⟨⟨by simp [Mixture.add_group], ?_, ?_⟩, ?_, ?_, ?_⟩
  · simp [Mixture.add_group, hss]
  · intro row hrowmem
    simp only [Mixture.add_group, List.mem_map, List.mem_range] at hrowmem
    obtain ⟨v, hv, rfl⟩ := hrowmem
    simp only [Mixture.add_group, List.length_append, List.length_singleton]
    rw [hrowlen v hv]
  · intro group hmem
    simp only [Mixture.add_group, List.mem_append, List.mem_singleton] at hmem
    rcases hmem with hmem | rfl
    · exact hnodup group hmem
    · simp [Group.keysNodup, Group.init]
  · intro g hg
    simp only [Mixture.add_group, List.length_append, List.length_singleton]
      at hg
    by_cases hlt : g < m.groups.length
    · simp only [Mixture.add_group]
      rw [getD_append_left _ _ _ _ hlt,
        getD_append_left _ _ _ _ (lt_of_lt_of_eq hlt hss.symm)]
      exact hshift g hlt
    · have hEq : g = m.groups.length := by omega
      subst hEq
      simp only [Mixture.add_group]
      rw [getD_append_last, ← hss, getD_append_last]
      exact Or.inr ⟨rfl, rfl⟩
  · intro v hv g hg
    simp only [Mixture.add_group, List.length_append, List.length_singleton]
      at hg
    simp only [Mixture.add_group]
    rw [getD_map_range _ _ _ _ hv]
    by_cases hlt : g < m.groups.length
    · rw [getD_append_left _ _ _ _ hlt,
        getD_append_left _ _ _ _ (by rw [hrowlen v hv]; exact hlt)]
      exact hcell v hv g hlt
    · have hEq : g = m.groups.length := by omega
      subst hEq
      rw [getD_append_last, ← hrowlen v hv, getD_append_last]
      exact Or.inr ⟨rfl, rfl⟩

/-- Source `remove_group` preserves the cache invariant: each surviving slot keeps
a cell/group pairing that already existed. -/
theorem cacheInv_removeGroup (log : ℚ → ℚ) (shared : Shared) (m : Mixture)
    (groupid : ℕ) (h : cacheInv log shared m)
    (hg : groupid < m.groups.length) :
    cacheInv log shared (m.remove_group shared groupid) := by
  obtain ⟨⟨hs, hss, hrow⟩, hnodup, hshift, hcell⟩ := h
  have hrowlen : ∀ v, v < shared.dim →
      (m.scores.getD v []).length = m.groups.length := fun v hv =>
    hrow _ (getD_mem m.scores v [] (lt_of_lt_of_eq hv hs.symm))
  by_cases hcase : groupid = m.groups.length - 1
  · simp only [Mixture.remove_group, if_pos hcase]
    refine ⟨⟨by simp, ?_, ?_⟩, ?_, ?_, ?_⟩
    · rw [List.length_take, List.length_take, hss]
    · intro row hmem
      simp only [List.mem_map, List.mem_range] at hmem
      obtain ⟨v, hv, rfl⟩ := hmem
      rw [List.length_take, List.length_take, hrowlen v hv]
    · intro group hmem
      exact hnodup group (List.mem_of_mem_take hmem)
    · intro g hgl
      rw [List.length_take] at hgl
      have hglt : g < m.groups.length - 1 :=
        lt_of_lt_of_le hgl (min_le_left _ _)
      have hgl2 : g < m.groups.length := by omega
      rw [getD_take _ _ _ _ hglt, getD_take _ _ _ _ hglt]
      exact hshift g hgl2
    · intro v hv g hgl
      rw [List.length_take] at hgl
      have hglt : g < m.groups.length - 1 :=
        lt_of_lt_of_le hgl (min_le_left _ _)
      have hgl2 : g < m.groups.length := by omega
      rw [getD_map_range _ _ _ _ hv, getD_take _ _ _ _ hglt,
        getD_take _ _ _ _ hglt]
      exact hcell v hv g hgl2
  · simp only [Mixture.remove_group, if_neg hcase]
    have hlast : m.groups.length - 1 < m.groups.length := by omega
    refine ⟨⟨by simp, ?_, ?_⟩, ?_, ?_, ?_⟩
    · rw [List.length_take, List.length_take, List.length_set,
        List.length_set, hss]
    · intro row hmem
      simp only [List.mem_map, List.mem_range] at hmem
      obtain ⟨v, hv, rfl⟩ := hmem
      rw [List.length_take, List.length_take, List.length_set,
        List.length_set, hrowlen v hv]
    · intro group hmem
      rcases List.mem_or_eq_of_mem_set (List.mem_of_mem_take hmem)
        with hmem3 | rfl
      · exact hnodup group hmem3
      · exact hnodup _ (getD_mem m.groups _ Group.init hlast)
    · intro g hgl
      rw [List.length_take, List.length_set] at hgl
      have hglt : g < m.groups.length - 1 :=
        lt_of_lt_of_le hgl (min_le_left _ _)
      have hgl2 : g < m.groups.length := by omega
      by_cases hEq : g = groupid
      · subst hEq
        rw [getD_take _ _ _ _ hglt, getD_take _ _ _ _ hglt,
          getD_set_self _ _ _ _ hg,
          getD_set_self _ _ _ _ (lt_of_lt_of_eq hg hss.symm), hss]
        exact hshift _ hlast
      · rw [getD_take _ _ _ _ hglt, getD_take _ _ _ _ hglt,
          getD_set_ne _ _ _ _ _ (Ne.symm hEq),
          getD_set_ne _ _ _ _ _ (Ne.symm hEq)]
        exact hshift g hgl2
    · intro v hv g hgl
      rw [List.length_take, List.length_set] at hgl
      have hglt : g < m.groups.length - 1 :=
        lt_of_lt_of_le hgl (min_le_left _ _)
      have hgl2 : g < m.groups.length := by omega
      rw [getD_map_range _ _ _ _ hv]
      by_cases hEq : g = groupid
      · subst hEq
        rw [getD_take _ _ _ _ hglt, getD_take _ _ _ _ hglt,
          getD_set_self _ _ _ _ hg,
          getD_set_self _ _ _ _ (lt_of_lt_of_eq hg (hrowlen v hv).symm),
          hrowlen v hv]
        exact hcell v hv _ hlast
      · rw [getD_take _ _ _ _ hglt, getD_take _ _ _ _ hglt,
          getD_set_ne _ _ _ _ _ (Ne.symm hEq),
          getD_set_ne _ _ _ _ _ (Ne.symm hEq)]
        exact hcell v hv g hgl2

/-- Source `add_value` preserves the cache invariant: the two written entries get
their exact closed-form values, every other entry keeps its pairing. -/
theorem cacheInv_addValue (log : ℚ → ℚ) (shared : Shared) (m : Mixture)
    (groupid : ℕ) (value : Value) (h : cacheInv log shared m)
    (hg : groupid < m.groups.length) (hv : value < shared.dim) :
    cacheInv log shared (m.add_value log shared groupid value) := by
  obtain ⟨⟨hs, hss, hrow⟩, hnodup, hshift, hcell⟩ := h
  have hvlen : value < m.scores.length := lt_of_lt_of_eq hv hs.symm
  have hrowlen : ∀ v, v < shared.dim →
      (m.scores.getD v []).length = m.groups.length := fun v hv2 =>
    hrow _ (getD_mem m.scores v [] (lt_of_lt_of_eq hv2 hs.symm))
  have hgrow : groupid < (m.scores.getD value []).length :=
    lt_of_lt_of_eq hg (hrowlen value hv).symm
  have hGnd : (m.groups.getD groupid Group.init).keysNodup :=
    hnodup _ (getD_mem _ _ _ hg)
  simp only [Mixture.add_value, Group.counts_mk]
  refine ⟨⟨?_, ?_, ?_⟩, ?_, ?_, ?_⟩
  · rw [List.length_set]
    exact hs
  · rw [List.length_set, List.length_set]
    exact hss
  · intro row hmem
    rcases List.mem_or_eq_of_mem_set hmem with hmem2 | rfl
    · rw [List.length_set]
      exact hrow row hmem2
    · rw [List.length_set, List.length_set]
      exact hrowlen value hv
  · intro group hmem
    rcases List.mem_or_eq_of_mem_set hmem with hmem2 | rfl
    · exact hnodup group hmem2
    · exact scAdd_keys_nodup _ _ hGnd
  · intro g hgl
    rw [List.length_set] at hgl
    by_cases hEq : g = groupid
    · subst hEq
      rw [getD_set_self _ _ _ _ hg,
        getD_set_self _ _ _ _ (lt_of_lt_of_eq hg hss.symm)]
      exact Or.inl rfl
    · rw [getD_set_ne _ _ _ _ _ (Ne.symm hEq),
        getD_set_ne _ _ _ _ _ (Ne.symm hEq)]
      exact hshift g hgl
  · intro v2 hv2 g hgl
    rw [List.length_set] at hgl
    by_cases hEqv : v2 = value
    · subst hEqv
      rw [getD_set_self _ _ _ _ hvlen]
      by_cases hEq : g = groupid
      · subst hEq
        rw [getD_set_self _ _ _ _ hgrow, getD_set_self _ _ _ _ hg]
        left
        unfold cellEq
        rw [Group.counts_mk, scGetCount_scAdd_self, scAdd_snd]
      · rw [getD_set_ne _ _ _ _ _ (Ne.symm hEq),
          getD_set_ne _ _ _ _ _ (Ne.symm hEq)]
        exact hcell v2 hv2 g hgl
    · rw [getD_set_ne _ _ _ _ _ (fun hc => hEqv hc.symm)]
      by_cases hEq : g = groupid
      · subst hEq
        rw [getD_set_self _ _ _ _ hg]
        have hold := hcell v2 hv2 g hg
        unfold cellOK cellEq at hold ⊢
        rw [Group.counts_mk, scGetCount_scAdd_ne _ _ _ hEqv]
        exact hold
      · rw [getD_set_ne _ _ _ _ _ (Ne.symm hEq)]
        exact hcell v2 hv2 g hgl

/-- Source `remove_value` preserves the cache invariant, symmetrically to
`add_value`. -/
theorem cacheInv_removeValue (log : ℚ → ℚ) (shared : Shared) (m : Mixture)
    (groupid : ℕ) (value : Value) (h : cacheInv log shared m)
    (hg : groupid < m.groups.length) (hv : value < shared.dim) :
    cacheInv log shared (m.remove_value log shared groupid value) := by
  obtain ⟨⟨hs, hss, hrow⟩, hnodup, hshift, hcell⟩ := h
  have hvlen : value < m.scores.length := lt_of_lt_of_eq hv hs.symm
  have hrowlen : ∀ v, v < shared.dim →
      (m.scores.getD v []).length = m.groups.length := fun v hv2 =>
    hrow _ (getD_mem m.scores v [] (lt_of_lt_of_eq hv2 hs.symm))
  have hgrow : groupid < (m.scores.getD value []).length :=
    lt_of_lt_of_eq hg (hrowlen value hv).symm
  have hGnd : (m.groups.getD groupid Group.init).keysNodup :=
    hnodup _ (getD_mem _ _ _ hg)
  simp only [Mixture.remove_value, Group.counts_mk]
  refine ⟨⟨?_, ?_, ?_⟩, ?_, ?_, ?_⟩
  · rw [List.length_set]
    exact hs
  · rw [List.length_set, List.length_set]
    exact hss
  · intro row hmem
    rcases List.mem_or_eq_of_mem_set hmem with hmem2 | rfl
    · rw [List.length_set]
      exact hrow row hmem2
    · rw [List.length_set, List.length_set]
      exact hrowlen value hv
  · intro group hmem
    rcases List.mem_or_eq_of_mem_set hmem with hmem2 | rfl
    · exact hnodup group hmem2
    · exact scRemove_keys_nodup _ _ hGnd
  · intro g hgl
    rw [List.length_set] at hgl
    by_cases hEq : g = groupid
    · subst hEq
      rw [getD_set_self _ _ _ _ hg,
        getD_set_self _ _ _ _ (lt_of_lt_of_eq hg hss.symm)]
      exact Or.inl rfl
    · rw [getD_set_ne _ _ _ _ _ (Ne.symm hEq),
        getD_set_ne _ _ _ _ _ (Ne.symm hEq)]
      exact hshift g hgl
  · intro v2 hv2 g hgl
    rw [List.length_set] at hgl
    by_cases hEqv : v2 = value
    · subst hEqv
      rw [getD_set_self _ _ _ _ hvlen]
      by_cases hEq : g = groupid
      · subst hEq
        rw [getD_set_self _ _ _ _ hgrow, getD_set_self _ _ _ _ hg]
        left
        unfold cellEq
        rw [Group.counts_mk, scGetCount_scRemove_self _ _ hGnd, scRemove_snd]
      · rw [getD_set_ne _ _ _ _ _ (Ne.symm hEq),
          getD_set_ne _ _ _ _ _ (Ne.symm hEq)]
        exact hcell v2 hv2 g hgl
    · rw [getD_set_ne _ _ _ _ _ (fun hc => hEqv hc.symm)]
      by_cases hEq : g = groupid
      · subst hEq
        rw [getD_set_self _ _ _ _ hg]
        have hold := hcell v2 hv2 g hg
        unfold cellOK cellEq at hold ⊢
        rw [Group.counts_mk, scGetCount_scRemove_ne _ _ _ hEqv]
        exact hold
      · rw [getD_set_ne _ _ _ _ _ (Ne.symm hEq)]
        exact hcell v2 hv2 g hgl

/-- One valid operation preserves the cache invariant. -/
theorem cacheInv_applyOp (log : ℚ → ℚ) (shared : Shared) (m : Mixture)
    (o : Op) (h : cacheInv log shared m) (hvalid : validOp shared m o) :
    cacheInv log shared (applyOp log shared m o) := by
  cases o with
  | addGroup => exact cacheInv_addGroup log shared m h
  | removeGroup groupid =>
      exact cacheInv_removeGroup log shared m groupid h hvalid
  | addValue groupid value =>
      exact cacheInv_addValue log shared m groupid value h hvalid.1 hvalid.2
  | removeValue groupid value =>
      exact cacheInv_removeValue log shared m groupid value h hvalid.1
        hvalid.2

/-- A valid operation sequence preserves the cache invariant. -/
theorem cacheInv_applySeq (log : ℚ → ℚ) (shared : Shared) :
    ∀ (ops : List Op) (m : Mixture), cacheInv log shared m →
      validSeq log shared m ops →
      cacheInv log shared (applySeq log shared m ops)
  | [], _, h, _ => h
  | o :: t, m, h, hval =>
    cacheInv_applySeq log shared t _
      (cacheInv_applyOp log shared m o h hval.1) hval.2

/-- C1 (amended): starting from an init'd Mixture, after every valid
sequence of add_group/remove_group/add_value/remove_value operations,
`scores[v][g]` equals `log(alpha*betas[v] + count of v in group g)` and
`scores_shift[g]` equals `log(alpha + total of group g)` for every value
`v < dim` and active group `g` — except that an entry whose column was
appended by `add_group` and never since written may still hold the lazily
zero-initialized value 0, in which case the corresponding count (resp.
total) is 0. -/
theorem C1_cache_equivalence_amended (log : ℚ → ℚ) (shared : Shared)
    (m0 : Mixture) (ops : List Op)
    (hnd : ∀ group ∈ m0.groups, group.keysNodup)
    (hvalid : validSeq log shared (m0.init log shared) ops) :
    cacheInv log shared (applySeq log shared (m0.init log shared) ops) :=
  cacheInv_applySeq log shared ops _ (cacheInv_init log shared m0 hnd) hvalid

/-- C1 witness: init on an empty mixture, then `add_group` and
`add_value(0,0)`. -/
theorem C1_cache_equivalence_amended_witness :
    ((∀ group ∈ (Mixture.mk [] [] []).groups, group.keysNodup) ∧
      validSeq id ⟨0, 1, 0, [2]⟩
        (Mixture.init id ⟨0, 1, 0, [2]⟩ ⟨[], [], []⟩)
        [Op.addGroup, Op.addValue 0 0]) ∧
    cacheInv id ⟨0, 1, 0, [2]⟩
      (applySeq id ⟨0, 1, 0, [2]⟩
        (Mixture.init id ⟨0, 1, 0, [2]⟩ ⟨[], [], []⟩)
        [Op.addGroup, Op.addValue 0 0]) :=
  ⟨⟨by decide, by decide⟩,
    C1_cache_equivalence_amended id ⟨0, 1, 0, [2]⟩ ⟨[], [], []⟩
      [Op.addGroup, Op.addValue 0 0] (by decide) (by decide)⟩

/-- C1 counterexample: after the valid operation `add_group` on an init'd
empty mixture, the new cache cell `scores[0][0]` holds the lazily
zero-initialized 0, not `log(alpha*betas[0] + 0)` (= 2 with `log = id`,
`alpha = 1`, `betas = [2]`), refuting exact cache equivalence after every
operation. -/
theorem C1_cache_equivalence_counterexample :
    ¬ (((applySeq id ⟨0, 1, 0, [2]⟩
          (Mixture.init id ⟨0, 1, 0, [2]⟩ ⟨[], [], []⟩)
          [Op.addGroup]).scores.getD 0 []).getD 0 0
        = id ((⟨0, 1, 0, [2]⟩ : Shared).alpha
          * (⟨0, 1, 0, [2]⟩ : Shared).betas.getD 0 0
          + (scGetCount ((applySeq id ⟨0, 1, 0, [2]⟩
              (Mixture.init id ⟨0, 1, 0, [2]⟩ ⟨[], [], []⟩)
              [Op.addGroup]).groups.getD 0 Group.init).counts 0 : ℚ))) := by
  simp [applySeq, applyOp, Mixture.init, Mixture.add_group, Shared.dim,
    scGetCount, scTotal, Group.init]

end DPD
